import Mathlib

/-!
Terrain mesh synthesis and camera model of `GLTools.h`.

A shallow embedding of `nr::driver::init::InitMesh`, `nr::driver::Camera`,
`nr::callbacks::KeyCallback` and the draw count used by `nr::driver::Render`.

Conventions of the embedding:

* `unsigned int` values are natural numbers kept below `2 ^ 32`; every
  `unsigned int` operation of the source reduces modulo `2 ^ 32`.
* a `float` is the rational number it denotes. The conversion of an
  `unsigned int` to `float` rounds to 24 significant bits; the height
  formula of the mesh is evaluated in exact rational arithmetic; the camera
  works over an arbitrary field with the primitives `cos`, `sin`, `sqrt`, `pi`.
* a `std::vector` is a `List`, `push_back` appends at the end.
-/

namespace nr

/-! ## Unsigned 32-bit arithmetic -/

/-- Number of values of an `unsigned int`. -/
def UINT_RANGE : Nat := 2 ^ 32

/-- Addition of two `unsigned int`s. -/
def uadd (a b : Nat) : Nat := (a + b) % UINT_RANGE

/-- Subtraction of two `unsigned int`s (wraps below zero). -/
def usub (a b : Nat) : Nat := (a + UINT_RANGE - b % UINT_RANGE) % UINT_RANGE

/-- Multiplication of two `unsigned int`s. -/
def umul (a b : Nat) : Nat := (a * b) % UINT_RANGE

/-- Conversion of a `size_t` to `unsigned int`. -/
def toUInt (a : Nat) : Nat := a % UINT_RANGE

/-! ## Containers and loops -/

/-- The call `v.push_back(a)` on a `std::vector`. -/
def push_back {α : Type} (v : List α) (a : α) : List α := v ++ [a]

/-- The loop `for (unsigned int k = 0; k < n; ++k) body(k)` acting on a state. -/
def forLoop {σ : Type} (n : Nat) (body : Nat → σ → σ) (s : σ) : σ :=
  (List.range n).foldl (fun acc k => body k acc) s

/-! ## The height map -/

/-- An `sf::Color` restricted to the three channels that are read. -/
structure Color where
  r : Fin 256
  g : Fin 256
  b : Fin 256

/-- An `sf::Image`: its size (an `sf::Vector2u`) and its pixels. -/
structure Image where
  /-- The field `getSize().x`: the width. -/
  x : Nat
  /-- The field `getSize().y`: the height. -/
  y : Nat
  /-- The call `getPixel(i, j)`: column `i`, row `j`. -/
  getPixel : Nat → Nat → Color
  x_lt : x < UINT_RANGE
  y_lt : y < UINT_RANGE

/-! ## `InitMesh` -/

/-- The constant `VERTEX_X_SPACE`. -/
def VERTEX_X_SPACE : ℚ := 1

/-- The constant `VERTEX_Z_SPACE`. -/
def VERTEX_Z_SPACE : ℚ := 1

/-- The constant `MAX_Y = pow(2, 11)`. -/
def MAX_Y : ℚ := 2 ^ 11

/-- Spacing of neighbouring `float` values at `n`: 1 below `2 ^ 24`, doubled
for every further bit. The first argument bounds the number of halvings; 8 are
enough for an `unsigned int`. -/
def floatUlp : Nat → Nat → Nat
  | 0, _ => 1
  | fuel + 1, n => if n < 2 ^ 24 then 1 else 2 * floatUlp fuel (n / 2)

/-- The implicit conversion of an `unsigned int` to `float`: the nearest value
with a 24-bit significand, ties going to the even significand. -/
def uintToFloat (n : Nat) : ℚ :=
  let ulp := floatUlp 8 n
  let q := n / ulp
  let r := n % ulp
  let q := if 2 * r < ulp then q else if ulp < 2 * r then q + 1
    else if q % 2 = 0 then q else q + 1
  ((q * ulp : Nat) : ℚ)

/-- The value `colavg` of the pixel in column `i`, row `j`: the channel sum
divided by 255. -/
def colavg (heightMap : Image) (i j : Nat) : ℚ :=
  let col := heightMap.getPixel i j
  let colavg : ℚ := ((col.r.val + col.g.val + col.b.val : Nat) : ℚ)
  colavg / 255

/-- Body of the inner vertex loop: three `push_back`s for pixel `(i, j)`.
The counters `i` and `j` are converted to `float` before the multiplication
by a spacing of 1, which is exact. The local `pxl`, read from the raw pixel
array and never used, is left out. -/
def vertexBody (heightMap : Image) (j i : Nat) (vertices : List ℚ) : List ℚ :=
  let vertices := push_back vertices (uintToFloat i * VERTEX_X_SPACE)
  let vertices := push_back vertices ((MAX_Y * colavg heightMap i j) / 255)
  push_back vertices (uintToFloat j * VERTEX_Z_SPACE)

/-- The vertex loops of `InitMesh`: rows `j < mapDim.y`, columns `i < mapDim.x`. -/
def vertexLoops (heightMap : Image) (vertices : List ℚ) : List ℚ :=
  forLoop heightMap.y (fun j vs => forLoop heightMap.x (vertexBody heightMap j) vs) vertices

/-- Body of the inner index loop: six `push_back`s for the cell `(j, i)`. -/
def indexBody (mapDim_x j i : Nat) (indices : List Nat) : List Nat :=
  let index := uadd (umul j mapDim_x) i
  let indices := push_back indices index
  let indices := push_back indices (uadd index 1)
  if i % 2 = 0 then
    let indices := push_back indices (uadd (uadd index mapDim_x) 1)
    let indices := push_back indices index
    let indices := push_back indices (uadd index mapDim_x)
    push_back indices (uadd (uadd index mapDim_x) 1)
  else
    let indices := push_back indices (uadd index mapDim_x)
    let indices := push_back indices (uadd index mapDim_x)
    let indices := push_back indices (uadd (uadd index mapDim_x) 1)
    push_back indices (uadd index 1)

/-- The index loops of `InitMesh`: both bounds are `mapDim.y - 1`. -/
def indexLoops (heightMap : Image) (indices : List Nat) : List Nat :=
  forLoop (usub heightMap.y 1)
    (fun j ids => forLoop (usub heightMap.y 1) (indexBody heightMap.x j) ids) indices

/-- What `InitMesh` leaves behind: the two vectors and the global `NUM_POINTS`. -/
structure Mesh where
  vertices : List ℚ
  indices : List Nat
  NUM_POINTS : Nat

/-- The function `InitMesh(vertices, indices)`, with the loaded height map as
an argument. -/
def InitMesh (heightMap : Image) (vertices : List ℚ) (indices : List Nat) : Mesh :=
  let vertices := vertexLoops heightMap vertices
  let indices := indexLoops heightMap indices
  { vertices := vertices, indices := indices, NUM_POINTS := toUInt vertices.length }

/-- The element count that `Render` hands to `glDrawElements`. -/
def Render_drawCount (m : Mesh) : Nat := m.NUM_POINTS

/-- The six indices the specification lists for a cell with the given `base`
in column `i`, in plain natural-number arithmetic. -/
def specQuad (W base i : Nat) : List Nat :=
  if i % 2 = 0 then [base, base + 1, base + W + 1, base, base + W, base + W + 1]
  else [base, base + 1, base + W, base + W, base + W + 1, base + 1]

/-- A black pixel. -/
def black : Color := ⟨0, 0, 0⟩

/-- A pure red pixel: its channel sum is 255. -/
def red : Color := ⟨255, 0, 0⟩

/-- A one-pixel image holding a pure red pixel. -/
def redImage : Image :=
  { x := 1, y := 1, getPixel := fun _ _ => red, x_lt := by decide, y_lt := by decide }

/-- An all-black image of the given size. -/
def blackImage (w h : Nat) (hw : w < UINT_RANGE) (hh : h < UINT_RANGE) : Image :=
  { x := w, y := h, getPixel := fun _ _ => black, x_lt := hw, y_lt := hh }

/-- A black `2 x 2` image (`W = 2`, `H = 2`). -/
def image2x2 : Image := blackImage 2 2 (by decide) (by decide)

/-- A black image of width 2 and height 3 (`W = 2`, `H = 3`). -/
def image2x3 : Image := blackImage 2 3 (by decide) (by decide)

/-- A black image of width 3 and height 2 (`W = 3`, `H = 2`). -/
def image3x2 : Image := blackImage 3 2 (by decide) (by decide)

/-- A black image of width `2 ^ 24 + 2` and height 1: a single row. -/
def imageRow : Image := blackImage 16777218 1 (by decide) (by decide)

/-! ## Vectors and the numeric primitives used by the camera -/

/-- A `glm::vec3` over a number type `R`. -/
structure Vec3 (R : Type) where
  x : R
  y : R
  z : R

namespace Vec3

variable {R : Type} [Field R]

/-- Component-wise sum of two vectors. -/
def add (a b : Vec3 R) : Vec3 R := ⟨a.x + b.x, a.y + b.y, a.z + b.z⟩

/-- Component-wise difference of two vectors. -/
def sub (a b : Vec3 R) : Vec3 R := ⟨a.x - b.x, a.y - b.y, a.z - b.z⟩

/-- Scalar times vector. -/
def smul (k : R) (a : Vec3 R) : Vec3 R := ⟨k * a.x, k * a.y, k * a.z⟩

/-- The function `glm::dot`. -/
def dot (a b : Vec3 R) : R := a.x * b.x + a.y * b.y + a.z * b.z

/-- The function `glm::cross`. -/
def cross (a b : Vec3 R) : Vec3 R :=
  ⟨a.y * b.z - b.y * a.z, a.z * b.x - b.z * a.x, a.x * b.y - b.x * a.y⟩

end Vec3

/-- The numeric primitives of `<cmath>` that the camera calls, over `R`. -/
structure MathOps (R : Type) where
  cos : R → R
  sin : R → R
  sqrt : R → R
  pi : R

section Camera

variable {R : Type} [Field R]

/-- The function `glm::radians`: degrees times `pi / 180`. -/
def radians (m : MathOps R) (degrees : R) : R := degrees * (m.pi / 180)

/-- The function `glm::inversesqrt`. -/
def inversesqrt (m : MathOps R) (a : R) : R := 1 / m.sqrt a

/-- The function `glm::normalize`: the vector times `inversesqrt(dot(v, v))`. -/
def normalize (m : MathOps R) (v : Vec3 R) : Vec3 R :=
  Vec3.smul (inversesqrt m (Vec3.dot v v)) v

/-! ## `Camera` -/

/-- The class `nr::driver::Camera`. -/
structure Camera (R : Type) where
  pitch : R
  yaw : R
  roll : R
  cameraPosition_ : Vec3 R
  cameraFront_ : Vec3 R
  cameraUp_ : Vec3 R
  viewMatrix_ : Fin 4 → Fin 4 → R

/-- The member `cameraSpeed_ = 1.5`. -/
def cameraSpeed_ : R := 3 / 2

/-- The member `eulerSpeed_ = 4`. -/
def eulerSpeed_ : R := 4

/-- The vector `direction` that `UpdateRotation` builds from yaw and pitch. -/
def direction (m : MathOps R) (yaw pitch : R) : Vec3 R :=
  { x := m.cos (radians m yaw) * m.cos (radians m pitch)
    y := m.sin (radians m pitch)
    z := m.sin (radians m yaw) * m.cos (radians m pitch) }

namespace Camera

/-- The method `UpdateRotation`. -/
def UpdateRotation (m : MathOps R) (c : Camera R) : Camera R :=
  { c with cameraFront_ := normalize m (direction m c.yaw c.pitch) }

/-- The constructor `Camera()`. -/
def new (m : MathOps R) : Camera R :=
  UpdateRotation m
    { pitch := 0
      yaw := 90
      roll := 0
      cameraPosition_ := ⟨5, 100, 10⟩
      cameraUp_ := ⟨0, 1, 0⟩
      cameraFront_ := ⟨-2, -2, -1⟩
      viewMatrix_ := fun i j => if i = j then 1 else 0 }

/-- The method `MoveNorth`. -/
def MoveNorth (c : Camera R) : Camera R :=
  { c with cameraPosition_ := Vec3.add c.cameraPosition_ (Vec3.smul cameraSpeed_ c.cameraFront_) }

/-- The method `MoveSouth`. -/
def MoveSouth (c : Camera R) : Camera R :=
  { c with cameraPosition_ := Vec3.sub c.cameraPosition_ (Vec3.smul cameraSpeed_ c.cameraFront_) }

/-- The method `MoveWest`. -/
def MoveWest (m : MathOps R) (c : Camera R) : Camera R :=
  { c with
    cameraPosition_ :=
      Vec3.add c.cameraPosition_
        (Vec3.smul cameraSpeed_ (normalize m (Vec3.cross c.cameraFront_ c.cameraUp_))) }

/-- The method `MoveEast`. -/
def MoveEast (m : MathOps R) (c : Camera R) : Camera R :=
  { c with
    cameraPosition_ :=
      Vec3.sub c.cameraPosition_
        (Vec3.smul cameraSpeed_ (normalize m (Vec3.cross c.cameraFront_ c.cameraUp_))) }

/-- The method `LookUp`. -/
def LookUp (m : MathOps R) (c : Camera R) : Camera R :=
  UpdateRotation m { c with pitch := c.pitch + eulerSpeed_ }

/-- The method `LookDown`. -/
def LookDown (m : MathOps R) (c : Camera R) : Camera R :=
  UpdateRotation m { c with pitch := c.pitch - eulerSpeed_ }

/-- The method `LookLeft`. -/
def LookLeft (m : MathOps R) (c : Camera R) : Camera R :=
  UpdateRotation m { c with yaw := c.yaw - eulerSpeed_ }

/-- The method `LookRight`. -/
def LookRight (m : MathOps R) (c : Camera R) : Camera R :=
  UpdateRotation m { c with yaw := c.yaw + eulerSpeed_ }

end Camera

/-- The eight public mutators of `Camera`. -/
inductive CameraOp where
  | MoveNorth | MoveSouth | MoveWest | MoveEast
  | LookUp | LookDown | LookLeft | LookRight

/-- One call of a mutator. -/
def Camera.step (m : MathOps R) (c : Camera R) : CameraOp → Camera R
  | .MoveNorth => c.MoveNorth
  | .MoveSouth => c.MoveSouth
  | .MoveWest => c.MoveWest m
  | .MoveEast => c.MoveEast m
  | .LookUp => c.LookUp m
  | .LookDown => c.LookDown m
  | .LookLeft => c.LookLeft m
  | .LookRight => c.LookRight m

/-- A finite sequence of mutator calls, in order. -/
def Camera.run (m : MathOps R) (ops : List CameraOp) (c : Camera R) : Camera R :=
  ops.foldl (Camera.step m) c

/-! ## `KeyCallback` -/

/-- The constant `GLFW_RELEASE`. -/
def GLFW_RELEASE : Int := 0
/-- The constant `GLFW_PRESS`. -/
def GLFW_PRESS : Int := 1
/-- The constant `GLFW_REPEAT`. -/
def GLFW_REPEAT : Int := 2
/-- The constant `GLFW_KEY_SPACE`. -/
def GLFW_KEY_SPACE : Int := 32
/-- The constant `GLFW_KEY_A`. -/
def GLFW_KEY_A : Int := 65
/-- The constant `GLFW_KEY_D`. -/
def GLFW_KEY_D : Int := 68
/-- The constant `GLFW_KEY_S`. -/
def GLFW_KEY_S : Int := 83
/-- The constant `GLFW_KEY_W`. -/
def GLFW_KEY_W : Int := 87
/-- The constant `GLFW_KEY_RIGHT`. -/
def GLFW_KEY_RIGHT : Int := 262
/-- The constant `GLFW_KEY_LEFT`. -/
def GLFW_KEY_LEFT : Int := 263
/-- The constant `GLFW_KEY_DOWN`. -/
def GLFW_KEY_DOWN : Int := 264
/-- The constant `GLFW_KEY_UP`. -/
def GLFW_KEY_UP : Int := 265

/-- The rasterisation modes handed to `glPolygonMode`. -/
inductive PolygonMode where
  | GL_LINE | GL_FILL
  deriving DecidableEq

/-- The globals that `KeyCallback` reads and writes. -/
structure Driver (R : Type) where
  wireframeMode_ : Bool
  camera_ : Camera R
  polygonMode : PolygonMode

/-- The function `KeyCallback(window, key, scancode, action, mods)`.
`spaceState` is what `glfwGetKey(window, GLFW_KEY_SPACE)` returns during the call. -/
def KeyCallback (m : MathOps R) (spaceState : Int) (key _scancode _action _mods : Int)
    (s : Driver R) : Driver R :=
  if key = GLFW_KEY_SPACE then
    if spaceState ≠ GLFW_PRESS then s
    else
      let wireframeMode_ := !s.wireframeMode_
      { s with
        wireframeMode_ := wireframeMode_
        polygonMode := if wireframeMode_ then .GL_LINE else .GL_FILL }
  else if key = GLFW_KEY_S then { s with camera_ := s.camera_.MoveSouth }
  else if key = GLFW_KEY_W then { s with camera_ := s.camera_.MoveNorth }
  else if key = GLFW_KEY_A then { s with camera_ := s.camera_.MoveEast m }
  else if key = GLFW_KEY_D then { s with camera_ := s.camera_.MoveWest m }
  else if key = GLFW_KEY_LEFT then { s with camera_ := s.camera_.LookLeft m }
  else if key = GLFW_KEY_RIGHT then { s with camera_ := s.camera_.LookRight m }
  else if key = GLFW_KEY_UP then { s with camera_ := s.camera_.LookUp m }
  else if key = GLFW_KEY_DOWN then { s with camera_ := s.camera_.LookDown m }
  else s

end Camera

/-! ## Helper lemmas on loops and lists -/

theorem forLoop_append {α : Type} (f : Nat → List α) (body : Nat → List α → List α)
    (hbody : ∀ k acc, body k acc = acc ++ f k) (n : Nat) (s : List α) :
    forLoop n body s = s ++ (List.range n).flatMap f := by
  unfold forLoop
  induction n with
  | zero => simp
  | succ n ih =>
    rw [List.range_succ, List.foldl_append, ih]
    simp [hbody, List.flatMap_append]

theorem length_flatMap_range {α : Type} (f : Nat → List α) (c : Nat)
    (hlen : ∀ k, (f k).length = c) (n : Nat) :
    ((List.range n).flatMap f).length = c * n := by
  induction n with
  | zero => simp
  | succ n ih =>
    rw [List.range_succ, List.flatMap_append, List.length_append, ih]
    simp [hlen, Nat.mul_succ]

theorem getElem?_flatMap_range {α : Type} (f : Nat → List α) (c : Nat)
    (hlen : ∀ k, (f k).length = c) (n k t : Nat) (hk : k < n) (ht : t < c) :
    ((List.range n).flatMap f)[c * k + t]? = (f k)[t]? := by
  induction n with
  | zero => omega
  | succ n ih =>
    have hA := length_flatMap_range f c hlen n
    rw [List.range_succ, List.flatMap_append]
    by_cases hkn : k < n
    · have hlt : c * k + t < ((List.range n).flatMap f).length := by
        rw [hA]
        calc c * k + t < c * k + c := by omega
          _ = c * (k + 1) := by ring
          _ ≤ c * n := Nat.mul_le_mul_left c hkn
      rw [List.getElem?_append_left hlt]
      exact ih hkn
    · have hkeq : k = n := by omega
      subst hkeq
      have hge : ((List.range k).flatMap f).length ≤ c * k + t := by rw [hA]; omega
      rw [List.getElem?_append_right hge, hA]
      simp

/-! ## The two buffers as flat lists -/

theorem vertexBody_append (img : Image) (j i : Nat) (vs : List ℚ) :
    vertexBody img j i vs = vs ++ vertexBody img j i [] := by
  simp [vertexBody, push_back]

theorem vertexBody_length (img : Image) (j i : Nat) :
    (vertexBody img j i []).length = 3 := by
  simp [vertexBody, push_back]

theorem indexBody_append (W j i : Nat) (ids : List Nat) :
    indexBody W j i ids = ids ++ indexBody W j i [] := by
  unfold indexBody
  by_cases h : i % 2 = 0 <;> simp [h, push_back]

theorem indexBody_length (W j i : Nat) : (indexBody W j i []).length = 6 := by
  unfold indexBody
  by_cases h : i % 2 = 0 <;> simp [h, push_back]

/-- Two nested appending loops produce the blocks in row-major order. -/
theorem nested_forLoop_append {α : Type} (body : Nat → Nat → List α → List α)
    (hbody : ∀ j i acc, body j i acc = acc ++ body j i []) (n w : Nat) (s : List α) :
    forLoop n (fun j acc => forLoop w (body j) acc) s
      = s ++ (List.range n).flatMap (fun j => (List.range w).flatMap (fun i => body j i [])) :=
  forLoop_append (fun j => (List.range w).flatMap (fun i => body j i []))
    (fun j acc => forLoop w (body j) acc)
    (fun j acc => forLoop_append (fun i => body j i []) (body j) (hbody j) w acc) n s

theorem InitMesh_vertices (img : Image) (vs : List ℚ) (ids : List Nat) :
    (InitMesh img vs ids).vertices = vertexLoops img vs := by
  simp only [InitMesh]

theorem InitMesh_indices (img : Image) (vs : List ℚ) (ids : List Nat) :
    (InitMesh img vs ids).indices = indexLoops img ids := by
  simp only [InitMesh]

/-- The vertex buffer: the rows in order, each row its pixels in order. -/
theorem vertices_eq (img : Image) :
    (InitMesh img [] []).vertices =
      (List.range img.y).flatMap
        (fun j => (List.range img.x).flatMap (fun i => vertexBody img j i [])) := by
  rw [InitMesh_vertices]
  unfold vertexLoops
  rw [nested_forLoop_append (vertexBody img) (vertexBody_append img) img.y img.x [],
    List.nil_append]

/-- The index buffer: the cell rows in order, each row its cells in order. -/
theorem indices_eq (img : Image) :
    (InitMesh img [] []).indices =
      (List.range (usub img.y 1)).flatMap
        (fun j => (List.range (usub img.y 1)).flatMap (fun i => indexBody img.x j i [])) := by
  rw [InitMesh_indices]
  unfold indexLoops
  rw [nested_forLoop_append (indexBody img.x) (indexBody_append img.x)
    (usub img.y 1) (usub img.y 1) [], List.nil_append]

theorem vertices_length (img : Image) :
    (InitMesh img [] []).vertices.length = 3 * (img.x * img.y) := by
  rw [vertices_eq, length_flatMap_range _ (3 * img.x)
    (fun j => length_flatMap_range _ 3 (fun i => vertexBody_length img j i) img.x)]
  ring

theorem indices_length (img : Image) :
    (InitMesh img [] []).indices.length = 6 * (usub img.y 1 * usub img.y 1) := by
  rw [indices_eq, length_flatMap_range _ (6 * usub img.y 1)
    (fun j => length_flatMap_range _ 6 (fun i => indexBody_length img.x j i) (usub img.y 1))]
  ring

/-- Entry `t` of the vertex of pixel `(i, j)` sits at position `3 * (j * W + i) + t`. -/
theorem vertices_getElem? (img : Image) (j i t : Nat) (hj : j < img.y) (hi : i < img.x)
    (ht : t < 3) :
    (InitMesh img [] []).vertices[3 * (j * img.x + i) + t]? = (vertexBody img j i [])[t]? := by
  have hpos : 3 * (j * img.x + i) + t = (3 * img.x) * j + (3 * i + t) := by ring
  rw [vertices_eq, hpos, getElem?_flatMap_range _ (3 * img.x)
    (fun j => length_flatMap_range _ 3 (fun i => vertexBody_length img j i) img.x)
    img.y j (3 * i + t) hj (by omega)]
  exact getElem?_flatMap_range _ 3 (fun i => vertexBody_length img j i) img.x i t hi ht

/-- Entry `t` of cell `(j, i)` sits at position `6 * (j * n + i) + t`, where `n`
is the common bound of the two index loops. -/
theorem indices_getElem? (img : Image) (j i t : Nat) (hj : j < usub img.y 1)
    (hi : i < usub img.y 1) (ht : t < 6) :
    (InitMesh img [] []).indices[6 * (j * usub img.y 1 + i) + t]?
      = (indexBody img.x j i [])[t]? := by
  have hpos : 6 * (j * usub img.y 1 + i) + t = (6 * usub img.y 1) * j + (6 * i + t) := by ring
  rw [indices_eq, hpos, getElem?_flatMap_range _ (6 * usub img.y 1)
    (fun j => length_flatMap_range _ 6 (fun i => indexBody_length img.x j i) (usub img.y 1))
    (usub img.y 1) j (6 * i + t) hj (by omega)]
  exact getElem?_flatMap_range _ 6 (fun i => indexBody_length img.x j i) (usub img.y 1) i t hi ht

/-- The six entries of cell `(j, i)` as a slice of the index buffer. -/
theorem indices_cell (img : Image) (j i : Nat) (hj : j < usub img.y 1)
    (hi : i < usub img.y 1) :
    ((InitMesh img [] []).indices.drop (6 * (j * usub img.y 1 + i))).take 6
      = indexBody img.x j i [] := by
  apply List.ext_getElem?
  intro t
  by_cases ht : t < 6
  · rw [List.getElem?_take_of_lt ht, List.getElem?_drop]
    exact indices_getElem? img j i t hj hi ht
  · rw [List.getElem?_take_eq_none (by omega), List.getElem?_eq_none]
    rw [indexBody_length]; omega

/-- Every entry of the index buffer belongs to some visited cell. -/
theorem mem_indices_iff (img : Image) (idx : Nat) :
    idx ∈ (InitMesh img [] []).indices ↔
      ∃ j, j < usub img.y 1 ∧ ∃ i, i < usub img.y 1 ∧ idx ∈ indexBody img.x j i [] := by
  rw [indices_eq]
  simp only [List.mem_flatMap, List.mem_range]

theorem usub_one (H : Nat) (h1 : 1 ≤ H) (hH : H < UINT_RANGE) : usub H 1 = H - 1 := by
  simp only [usub, UINT_RANGE] at *
  omega

/-- The body of the index loop emits the listed six values, each reduced
modulo `2 ^ 32`. -/
theorem indexBody_eq_specQuad_mod (W j i : Nat) :
    indexBody W j i [] = (specQuad W (j * W + i) i).map (fun v => v % UINT_RANGE) := by
  have h0 : uadd (umul j W) i = (j * W + i) % UINT_RANGE := by
    simp only [uadd, umul, UINT_RANGE]; omega
  have h1 : uadd ((j * W + i) % UINT_RANGE) 1 = (j * W + i + 1) % UINT_RANGE := by
    simp only [uadd, UINT_RANGE]; omega
  have h2 : uadd ((j * W + i) % UINT_RANGE) W = (j * W + i + W) % UINT_RANGE := by
    simp only [uadd, UINT_RANGE]; omega
  have h3 : uadd ((j * W + i + W) % UINT_RANGE) 1 = (j * W + i + W + 1) % UINT_RANGE := by
    simp only [uadd, UINT_RANGE]; omega
  unfold indexBody specQuad
  by_cases h : i % 2 = 0 <;> simp [h, push_back, h0, h1, h2, h3]

/-- Without wraparound the body of the index loop emits the listed six values. -/
theorem indexBody_eq_specQuad (W j i : Nat) (hno : j * W + i + W + 1 < UINT_RANGE) :
    indexBody W j i [] = specQuad W (j * W + i) i := by
  rw [indexBody_eq_specQuad_mod]
  have e : ∀ v, v ≤ j * W + i + W + 1 → v % UINT_RANGE = v :=
    fun v hv => Nat.mod_eq_of_lt (lt_of_le_of_lt hv hno)
  unfold specQuad
  by_cases h : i % 2 = 0 <;>
    simp [h, e (j * W + i) (by omega), e (j * W + i + 1) (by omega),
      e (j * W + i + W) (by omega), e (j * W + i + W + 1) (by omega)]

/-- Every listed value of a cell is at most `base + W + 1`, which is one of them. -/
theorem specQuad_bound (W base i v : Nat) (hv : v ∈ specQuad W base i) :
    v ≤ base + W + 1 := by
  unfold specQuad at hv
  by_cases h : i % 2 = 0 <;> simp [h] at hv <;> omega

theorem specQuad_top_mem (W base i : Nat) : base + W + 1 ∈ specQuad W base i := by
  unfold specQuad
  by_cases h : i % 2 = 0 <;> simp [h]

/-- The height entry of the vertex of pixel `(i, j)`. -/
theorem vertex_height (img : Image) (j i : Nat) (hj : j < img.y) (hi : i < img.x) :
    (InitMesh img [] []).vertices[3 * (j * img.x + i) + 1]?
      = some (MAX_Y * colavg img i j / 255) := by
  rw [vertices_getElem? img j i 1 hj hi (by decide)]
  simp [vertexBody, push_back]

/-! ## The mesh: vertex buffer -/

/-- Below `2 ^ 24`, and at `2 ^ 24` itself, the conversion to `float` is exact. -/
theorem uintToFloat_exact (n : Nat) (h : n ≤ 2 ^ 24) : uintToFloat n = n := by
  rcases Nat.lt_or_eq_of_le h with hlt | rfl
  · have hu : floatUlp 8 n = 1 := by
      unfold floatUlp
      rw [if_pos hlt]
    simp [uintToFloat, hu, Nat.mod_one]
  · simp [uintToFloat, floatUlp]

/-- The x entry of the vertex of pixel `(i, j)`. -/
theorem vertex_x (img : Image) (j i : Nat) (hj : j < img.y) (hi : i < img.x) :
    (InitMesh img [] []).vertices[3 * (j * img.x + i)]?
      = some (uintToFloat i * VERTEX_X_SPACE) := by
  have h := vertices_getElem? img j i 0 hj hi (by decide)
  rw [Nat.add_zero] at h
  rw [h]
  simp [vertexBody, push_back]

/-- The z entry of the vertex of pixel `(i, j)`. -/
theorem vertex_z (img : Image) (j i : Nat) (hj : j < img.y) (hi : i < img.x) :
    (InitMesh img [] []).vertices[3 * (j * img.x + i) + 2]?
      = some (uintToFloat j * VERTEX_Z_SPACE) := by
  rw [vertices_getElem? img j i 2 hj hi (by decide)]
  simp [vertexBody, push_back]

/-- C2, refuted as stated: in a single row of `2 ^ 24 + 2` pixels the vertex of
column `i = 16777217` has x equal to `16777216`, the `float` nearest to `i`,
and not `i * Sx = 16777217`. -/
theorem InitMesh_vertices_counterexample :
    (InitMesh imageRow [] []).vertices[3 * (0 * imageRow.x + 16777217)]?
      = some 16777216 ∧
    (InitMesh imageRow [] []).vertices[3 * (0 * imageRow.x + 16777217)]?
      ≠ some (((16777217 : Nat) : ℚ) * 1) := by
  have h := vertex_x imageRow 0 16777217 (by decide) (by decide)
  have hv : uintToFloat 16777217 * VERTEX_X_SPACE = 16777216 := by
    simp [uintToFloat, floatUlp, VERTEX_X_SPACE]
  rw [hv] at h
  refine ⟨h, ?_⟩
  rw [h]
  norm_num

/-- C2, amended: for a `W x H` height map `InitMesh` produces `3 * W * H`
floats, that is `W * H` vertices, in row-major order: with both spacings equal
to 1, the vertex at index `j * W + i` has x equal to `float(i) * Sx` and z
equal to `float(j) * Sz`, where `float(n)` is `n` rounded to a `float`; x is
`i * Sx` whenever `i ≤ 2 ^ 24` and z is `j * Sz` whenever `j ≤ 2 ^ 24`. -/
theorem InitMesh_vertices_row_major (img : Image) :
    (InitMesh img [] []).vertices.length = 3 * (img.x * img.y) ∧
    VERTEX_X_SPACE = 1 ∧ VERTEX_Z_SPACE = 1 ∧
    ∀ j i, j < img.y → i < img.x →
      (InitMesh img [] []).vertices[3 * (j * img.x + i)]?
        = some (uintToFloat i * VERTEX_X_SPACE) ∧
      (InitMesh img [] []).vertices[3 * (j * img.x + i) + 2]?
        = some (uintToFloat j * VERTEX_Z_SPACE) ∧
      (i ≤ 2 ^ 24 →
        (InitMesh img [] []).vertices[3 * (j * img.x + i)]?
          = some ((i : ℚ) * VERTEX_X_SPACE)) ∧
      (j ≤ 2 ^ 24 →
        (InitMesh img [] []).vertices[3 * (j * img.x + i) + 2]?
          = some ((j : ℚ) * VERTEX_Z_SPACE)) := by
  refine ⟨vertices_length img, rfl, rfl, fun j i hj hi =>
    ⟨vertex_x img j i hj hi, vertex_z img j i hj hi, fun hi24 => ?_, fun hj24 => ?_⟩⟩
  · rw [vertex_x img j i hj hi, uintToFloat_exact i hi24]
  · rw [vertex_z img j i hj hi, uintToFloat_exact j hj24]

/-- Witness of the amended C2 on a `2 x 2` height map, at row 1 and column 1. -/
theorem InitMesh_vertices_row_major_witness :
    (InitMesh image2x2 [] []).vertices[3 * (1 * image2x2.x + 1)]?
        = some (((1 : Nat) : ℚ) * VERTEX_X_SPACE) ∧
    (InitMesh image2x2 [] []).vertices[3 * (1 * image2x2.x + 1) + 2]?
        = some (((1 : Nat) : ℚ) * VERTEX_Z_SPACE) :=
  ⟨((InitMesh_vertices_row_major image2x2).2.2.2 1 1 (by decide) (by decide)).2.2.1
      (by decide),
    ((InitMesh_vertices_row_major image2x2).2.2.2 1 1 (by decide) (by decide)).2.2.2
      (by decide)⟩

/-- C4, refuted as stated: the single pixel of `redImage` has channel sum 255,
so its sample is 1, yet the height emitted for it is `2048 / 255` and not
`MAX_HEIGHT * 1 = 2048`. -/
theorem InitMesh_height_counterexample :
    (InitMesh redImage [] []).vertices[3 * (0 * redImage.x + 0) + 1]? = some (2048 / 255) ∧
    (InitMesh redImage [] []).vertices[3 * (0 * redImage.x + 0) + 1]?
      ≠ some ((2 : ℚ) ^ 11 * ((255 + 0 + 0 : ℚ) / 255)) := by
  have h := vertex_height redImage 0 0 (by decide) (by decide)
  have hv : MAX_Y * colavg redImage 0 0 / 255 = (2048 / 255 : ℚ) := by
    have e255 : ((255 : Fin 256) : Nat) = 255 := rfl
    have e0 : ((0 : Fin 256) : Nat) = 0 := rfl
    simp only [colavg, redImage, red, MAX_Y, e255, e0]
    norm_num
  rw [hv] at h
  refine ⟨h, ?_⟩
  rw [h]
  norm_num

/-- C4, amended: for every pixel `(i, j)` with channels `r, g, b` the height
entry of its vertex is `MAX_HEIGHT * sample / 255` with
`sample = (r + g + b) / 255` and `MAX_HEIGHT = 2 ^ 11`, in exact rational
arithmetic; a pixel with `r + g + b = 255` gets `2048 / 255`, a black one 0. -/
theorem InitMesh_height (img : Image) (j i : Nat) (hj : j < img.y) (hi : i < img.x) :
    MAX_Y = 2 ^ 11 ∧
    (InitMesh img [] []).vertices[3 * (j * img.x + i) + 1]?
      = some (MAX_Y * ((((img.getPixel i j).r : Nat) + ((img.getPixel i j).g : Nat)
          + ((img.getPixel i j).b : Nat) : ℚ) / 255) / 255) ∧
    (((img.getPixel i j).r : Nat) + ((img.getPixel i j).g : Nat)
        + ((img.getPixel i j).b : Nat) = 255 →
      (InitMesh img [] []).vertices[3 * (j * img.x + i) + 1]? = some (2048 / 255)) ∧
    (((img.getPixel i j).r : Nat) + ((img.getPixel i j).g : Nat)
        + ((img.getPixel i j).b : Nat) = 0 →
      (InitMesh img [] []).vertices[3 * (j * img.x + i) + 1]? = some 0) := by
  have h := vertex_height img j i hj hi
  refine ⟨rfl, ?_, ?_, ?_⟩
  · rw [h]; simp [colavg]
  · intro hs
    rw [h]
    simp only [colavg, hs, MAX_Y]
    norm_num
  · intro hs
    rw [h]
    simp only [colavg, hs, MAX_Y]
    norm_num

/-- Witness of the amended C4 on the one-pixel red image. -/
theorem InitMesh_height_witness :
    (InitMesh redImage [] []).vertices[3 * (0 * redImage.x + 0) + 1]?
      = some (MAX_Y * ((((redImage.getPixel 0 0).r : Nat) + ((redImage.getPixel 0 0).g : Nat)
          + ((redImage.getPixel 0 0).b : Nat) : ℚ) / 255) / 255) :=
  (InitMesh_height redImage 0 0 (by decide) (by decide)).2.1

/-! ## The mesh: index buffer -/

/-- C1 at a `2 x 3` height map (`W = 2`, `H = 3`): the index buffer holds the
index 6, which is not below the vertex count `W * H = 6`. -/
theorem InitMesh_index_out_of_range :
    (InitMesh image2x3 [] []).vertices.length = 3 * (2 * 3) ∧
    ∃ idx ∈ (InitMesh image2x3 [] []).indices, ¬ idx < 2 * 3 :=
  ⟨vertices_length image2x3, 6, by decide, by decide⟩

/-- C3 at a `3 x 2` height map (`W = 3`, `H = 2`): the index buffer has 6
entries, not `6 * (H - 1) * (W - 1) = 12`. -/
theorem InitMesh_index_count_mismatch :
    (InitMesh image3x2 [] []).indices.length = 6 ∧
    (InitMesh image3x2 [] []).indices.length
      ≠ 6 * (2 - 1) * (3 - 1) := by
  decide

/-- C9 at a `2 x 2` height map: the count given to the draw call is 12 (the
number of floats in the vertex buffer) while the index buffer has 6 entries. -/
theorem Render_drawCount_mismatch :
    Render_drawCount (InitMesh image2x2 [] []) = 12 ∧
    (InitMesh image2x2 [] []).indices.length = 6 := by
  decide

theorem cell_top_le (W H j i : Nat) (hH : 2 ≤ H) (hj : j < H - 1) (hi : i < H - 1) :
    j * W + i + W + 1 ≤ (H - 1) * (W + 1) := by
  obtain ⟨h, rfl⟩ := Nat.exists_eq_add_of_le hH
  have e : 2 + h - 1 = h + 1 := by omega
  rw [e] at hj hi ⊢
  have hjW : j * W ≤ h * W := Nat.mul_le_mul_right W (by omega)
  have hexp : (h + 1) * (W + 1) = h * W + h + W + 1 := by ring
  omega

theorem top_lt_iff (W H : Nat) (hH : 2 ≤ H) : (H - 1) * (W + 1) < W * H ↔ H ≤ W := by
  obtain ⟨h, rfl⟩ := Nat.exists_eq_add_of_le hH
  have e : 2 + h - 1 = h + 1 := by omega
  have hexp : (h + 1) * (W + 1) = h * W + h + W + 1 := by ring
  have hexp2 : W * (2 + h) = h * W + 2 * W := by ring
  rw [e, hexp, hexp2]
  omega

theorem last_cell_top (W H : Nat) (hH : 2 ≤ H) :
    (H - 2) * W + (H - 2) + W + 1 = (H - 1) * (W + 1) := by
  obtain ⟨h, rfl⟩ := Nat.exists_eq_add_of_le hH
  have e : 2 + h - 1 = h + 1 := by omega
  have e2 : 2 + h - 2 = h := by omega
  rw [e, e2]
  ring

/-- C5: for every cell (row `j`, column `i`) visited by the index loops, whose
common bound is `mapDim.y - 1`, the six consecutive entries at positions
`6 * (j * bound + i) ..` of the index buffer, that is in cell-iteration order,
are the listed values for `base = j * W + i` by parity of `i`, as values of
the unsigned 32-bit index type. They are the listed natural numbers themselves
whenever `base + W + 1 < 2 ^ 32`, and so for every cell of every height map
with `H ≥ 1` and `H * (W + 1) < 2 ^ 32`. -/
theorem InitMesh_cell_indices (img : Image) (j i : Nat) (hj : j < usub img.y 1)
    (hi : i < usub img.y 1) :
    (1 ≤ img.y → usub img.y 1 = img.y - 1) ∧
    ((InitMesh img [] []).indices.drop (6 * (j * usub img.y 1 + i))).take 6
      = (specQuad img.x (j * img.x + i) i).map (fun v => v % UINT_RANGE) ∧
    (j * img.x + i + img.x + 1 < UINT_RANGE →
      ((InitMesh img [] []).indices.drop (6 * (j * usub img.y 1 + i))).take 6
        = specQuad img.x (j * img.x + i) i) ∧
    (1 ≤ img.y → img.y * (img.x + 1) < UINT_RANGE →
      ((InitMesh img [] []).indices.drop (6 * (j * usub img.y 1 + i))).take 6
        = specQuad img.x (j * img.x + i) i) := by
  refine ⟨fun h1 => usub_one img.y h1 img.y_lt, ?_, fun hno => ?_, fun h1 hno => ?_⟩
  · rw [indices_cell img j i hj hi, indexBody_eq_specQuad_mod]
  · rw [indices_cell img j i hj hi, indexBody_eq_specQuad img.x j i hno]
  · have hn := usub_one img.y h1 img.y_lt
    have hj1 : j < img.y - 1 := hn ▸ hj
    have hi1 : i < img.y - 1 := hn ▸ hi
    have hle : (img.y - 1) * (img.x + 1) ≤ img.y * (img.x + 1) :=
      Nat.mul_le_mul_right _ (Nat.sub_le _ _)
    rw [indices_cell img j i hj hi, indexBody_eq_specQuad img.x j i
      (lt_of_le_of_lt (cell_top_le img.x img.y j i (by omega) hj1 hi1)
        (lt_of_le_of_lt hle hno))]

/-- Witness of C5: cell `(1, 1)` of the `2 x 3` height map. -/
theorem InitMesh_cell_indices_witness :
    ((InitMesh image2x3 [] []).indices.drop (6 * (1 * usub image2x3.y 1 + 1))).take 6
      = specQuad image2x3.x (1 * image2x3.x + 1) 1 :=
  (InitMesh_cell_indices image2x3 1 1 (by decide) (by decide)).2.2.2 (by decide) (by decide)

/-- C10: for `W ≥ 1`, `H ≥ 2` and no 32-bit wraparound (`H * (W + 1) < 2 ^ 32`),
all indices emitted by `InitMesh` are below `W * H` exactly when `W ≥ H`; for
`W < H` the cell `(H - 2, H - 2)` emits `(H - 1) * (W + 1)`, which is at least
`W * H`. -/
theorem InitMesh_index_safe_iff (img : Image) (_hW : 1 ≤ img.x) (hH : 2 ≤ img.y)
    (hno : img.y * (img.x + 1) < UINT_RANGE) :
    ((∀ idx ∈ (InitMesh img [] []).indices, idx < img.x * img.y) ↔ img.y ≤ img.x) ∧
    (img.x < img.y →
      (img.y - 1) * (img.x + 1) ∈
        ((InitMesh img [] []).indices.drop
          (6 * ((img.y - 2) * (img.y - 1) + (img.y - 2)))).take 6 ∧
      img.x * img.y ≤ (img.y - 1) * (img.x + 1)) := by
  have hn : usub img.y 1 = img.y - 1 := usub_one img.y (by omega) img.y_lt
  have hle : (img.y - 1) * (img.x + 1) ≤ img.y * (img.x + 1) :=
    Nat.mul_le_mul_right _ (Nat.sub_le _ _)
  have hcell : ∀ j i, j < img.y - 1 → i < img.y - 1 →
      indexBody img.x j i [] = specQuad img.x (j * img.x + i) i := fun j i hj hi =>
    indexBody_eq_specQuad img.x j i
      (lt_of_le_of_lt (cell_top_le img.x img.y j i hH hj hi) (lt_of_le_of_lt hle hno))
  have hlast : (img.y - 1) * (img.x + 1) ∈
      ((InitMesh img [] []).indices.drop
        (6 * ((img.y - 2) * (img.y - 1) + (img.y - 2)))).take 6 := by
    have h := indices_cell img (img.y - 2) (img.y - 2) (by omega) (by omega)
    rw [hn] at h
    rw [h, hcell _ _ (by omega) (by omega), ← last_cell_top img.x img.y hH]
    exact specQuad_top_mem _ _ _
  have htop := top_lt_iff img.x img.y hH
  refine ⟨⟨fun hall => ?_, fun hyx idx hidx => ?_⟩, fun hxy => ⟨hlast, ?_⟩⟩
  · have hmem : (img.y - 1) * (img.x + 1) ∈ (InitMesh img [] []).indices :=
      List.mem_of_mem_drop (List.mem_of_mem_take hlast)
    exact htop.mp (hall _ hmem)
  · obtain ⟨j, hj, i, hi, hin⟩ := (mem_indices_iff img idx).mp hidx
    rw [hn] at hj hi
    rw [hcell j i hj hi] at hin
    have h1 := specQuad_bound _ _ _ _ hin
    have h2 := cell_top_le img.x img.y j i hH hj hi
    have h3 := htop.mpr hyx
    omega
  · by_contra hcon
    have := htop.mp (by omega)
    omega

/-- Witness of C10 on the `2 x 3` height map, where `W < H`. -/
theorem InitMesh_index_safe_iff_witness :
    ((∀ idx ∈ (InitMesh image2x3 [] []).indices, idx < image2x3.x * image2x3.y)
      ↔ image2x3.y ≤ image2x3.x) :=
  (InitMesh_index_safe_iff image2x3 (by decide) (by decide) (by decide)).1

/-! ## The camera -/

section CameraLemmas

variable {R : Type} [Field R]

/-- What every mutator maintains: the front vector is the normalised direction
of the current yaw and pitch, and the up vector is the world up. -/
theorem Camera.step_inv (m : MathOps R) (c : Camera R) (op : CameraOp)
    (h : c.cameraFront_ = normalize m (direction m c.yaw c.pitch) ∧ c.cameraUp_ = ⟨0, 1, 0⟩) :
    (c.step m op).cameraFront_
        = normalize m (direction m (c.step m op).yaw (c.step m op).pitch) ∧
      (c.step m op).cameraUp_ = ⟨0, 1, 0⟩ := by
  cases op <;>
    simp [Camera.step, Camera.MoveNorth, Camera.MoveSouth, Camera.MoveWest, Camera.MoveEast,
      Camera.LookUp, Camera.LookDown, Camera.LookLeft, Camera.LookRight,
      Camera.UpdateRotation, h.1, h.2]

theorem Camera.run_inv (m : MathOps R) (ops : List CameraOp) (c : Camera R)
    (h : c.cameraFront_ = normalize m (direction m c.yaw c.pitch) ∧ c.cameraUp_ = ⟨0, 1, 0⟩) :
    (Camera.run m ops c).cameraFront_
        = normalize m (direction m (Camera.run m ops c).yaw (Camera.run m ops c).pitch) ∧
      (Camera.run m ops c).cameraUp_ = ⟨0, 1, 0⟩ := by
  induction ops generalizing c with
  | nil => exact h
  | cons op ops ih => exact ih (c.step m op) (Camera.step_inv m c op h)

theorem Camera.new_inv (m : MathOps R) :
    (Camera.new m).cameraFront_
        = normalize m (direction m (Camera.new m).yaw (Camera.new m).pitch) ∧
      (Camera.new m).cameraUp_ = ⟨0, 1, 0⟩ := by
  simp [Camera.new, Camera.UpdateRotation]

/-- Every state reached from the constructor satisfies the invariant. -/
theorem Camera.reachable_inv (m : MathOps R) (ops : List CameraOp) :
    (Camera.run m ops (Camera.new m)).cameraFront_
        = normalize m (direction m (Camera.run m ops (Camera.new m)).yaw
            (Camera.run m ops (Camera.new m)).pitch) ∧
      (Camera.run m ops (Camera.new m)).cameraUp_ = ⟨0, 1, 0⟩ :=
  Camera.run_inv m ops _ (Camera.new_inv m)

end CameraLemmas

/-- With the Pythagorean identity the direction built from yaw and pitch has
squared length 1. -/
theorem direction_dot (m : MathOps ℝ) (hcs : ∀ a, m.cos a ^ 2 + m.sin a ^ 2 = 1)
    (yaw pitch : ℝ) :
    Vec3.dot (direction m yaw pitch) (direction m yaw pitch) = 1 := by
  have h1 := hcs (radians m yaw)
  have h2 := hcs (radians m pitch)
  simp only [Vec3.dot, direction]
  linear_combination (m.cos (radians m pitch)) ^ 2 * h1 + h2

/-- Normalising that direction leaves it unchanged, so its squared length stays 1. -/
theorem normalize_direction_dot (m : MathOps ℝ) (hcs : ∀ a, m.cos a ^ 2 + m.sin a ^ 2 = 1)
    (hsqrt : m.sqrt 1 = 1) (yaw pitch : ℝ) :
    Vec3.dot (normalize m (direction m yaw pitch)) (normalize m (direction m yaw pitch)) = 1 := by
  have hd := direction_dot m hcs yaw pitch
  have hn : normalize m (direction m yaw pitch) = direction m yaw pitch := by
    simp [normalize, inversesqrt, hd, hsqrt, Vec3.smul]
  rw [hn, hd]

/-- C6: over real arithmetic, after construction and after any finite sequence
of the eight mutators (looks interleaved with moves) the front vector has
Euclidean length exactly 1 and the up vector is `(0, 1, 0)`. -/
theorem Camera_front_unit (ops : List CameraOp) :
    Real.sqrt
      ((Camera.run ⟨Real.cos, Real.sin, Real.sqrt, Real.pi⟩ ops
          (Camera.new ⟨Real.cos, Real.sin, Real.sqrt, Real.pi⟩)).cameraFront_.x ^ 2
      + (Camera.run ⟨Real.cos, Real.sin, Real.sqrt, Real.pi⟩ ops
          (Camera.new ⟨Real.cos, Real.sin, Real.sqrt, Real.pi⟩)).cameraFront_.y ^ 2
      + (Camera.run ⟨Real.cos, Real.sin, Real.sqrt, Real.pi⟩ ops
          (Camera.new ⟨Real.cos, Real.sin, Real.sqrt, Real.pi⟩)).cameraFront_.z ^ 2) = 1 ∧
    (Camera.run ⟨Real.cos, Real.sin, Real.sqrt, Real.pi⟩ ops
      (Camera.new ⟨Real.cos, Real.sin, Real.sqrt, Real.pi⟩)).cameraUp_ = ⟨0, 1, 0⟩ := by
  have hinv := Camera.reachable_inv (⟨Real.cos, Real.sin, Real.sqrt, Real.pi⟩ : MathOps ℝ) ops
  refine ⟨?_, hinv.2⟩
  have hd := normalize_direction_dot (⟨Real.cos, Real.sin, Real.sqrt, Real.pi⟩ : MathOps ℝ)
    Real.cos_sq_add_sin_sq Real.sqrt_one
    (Camera.run ⟨Real.cos, Real.sin, Real.sqrt, Real.pi⟩ ops
      (Camera.new ⟨Real.cos, Real.sin, Real.sqrt, Real.pi⟩)).yaw
    (Camera.run ⟨Real.cos, Real.sin, Real.sqrt, Real.pi⟩ ops
      (Camera.new ⟨Real.cos, Real.sin, Real.sqrt, Real.pi⟩)).pitch
  rw [← hinv.1] at hd
  simp only [Vec3.dot] at hd
  rw [show ∀ a b c : ℝ, a ^ 2 + b ^ 2 + c ^ 2 = a * a + b * b + c * c from
    fun a b c => by ring, hd, Real.sqrt_one]

/-- C7: over real arithmetic, in every state reached from the constructor,
`LookLeft` followed by `LookRight` restores yaw and the front vector and leaves
pitch and position unchanged. -/
theorem Camera_LookLeft_LookRight (ops : List CameraOp) :
    (Camera.LookRight ⟨Real.cos, Real.sin, Real.sqrt, Real.pi⟩
      (Camera.LookLeft ⟨Real.cos, Real.sin, Real.sqrt, Real.pi⟩
        (Camera.run ⟨Real.cos, Real.sin, Real.sqrt, Real.pi⟩ ops
          (Camera.new ⟨Real.cos, Real.sin, Real.sqrt, Real.pi⟩)))).yaw
      = (Camera.run ⟨Real.cos, Real.sin, Real.sqrt, Real.pi⟩ ops
          (Camera.new ⟨Real.cos, Real.sin, Real.sqrt, Real.pi⟩)).yaw ∧
    (Camera.LookRight ⟨Real.cos, Real.sin, Real.sqrt, Real.pi⟩
      (Camera.LookLeft ⟨Real.cos, Real.sin, Real.sqrt, Real.pi⟩
        (Camera.run ⟨Real.cos, Real.sin, Real.sqrt, Real.pi⟩ ops
          (Camera.new ⟨Real.cos, Real.sin, Real.sqrt, Real.pi⟩)))).cameraFront_
      = (Camera.run ⟨Real.cos, Real.sin, Real.sqrt, Real.pi⟩ ops
          (Camera.new ⟨Real.cos, Real.sin, Real.sqrt, Real.pi⟩)).cameraFront_ ∧
    (Camera.LookRight ⟨Real.cos, Real.sin, Real.sqrt, Real.pi⟩
      (Camera.LookLeft ⟨Real.cos, Real.sin, Real.sqrt, Real.pi⟩
        (Camera.run ⟨Real.cos, Real.sin, Real.sqrt, Real.pi⟩ ops
          (Camera.new ⟨Real.cos, Real.sin, Real.sqrt, Real.pi⟩)))).pitch
      = (Camera.run ⟨Real.cos, Real.sin, Real.sqrt, Real.pi⟩ ops
          (Camera.new ⟨Real.cos, Real.sin, Real.sqrt, Real.pi⟩)).pitch ∧
    (Camera.LookRight ⟨Real.cos, Real.sin, Real.sqrt, Real.pi⟩
      (Camera.LookLeft ⟨Real.cos, Real.sin, Real.sqrt, Real.pi⟩
        (Camera.run ⟨Real.cos, Real.sin, Real.sqrt, Real.pi⟩ ops
          (Camera.new ⟨Real.cos, Real.sin, Real.sqrt, Real.pi⟩)))).cameraPosition_
      = (Camera.run ⟨Real.cos, Real.sin, Real.sqrt, Real.pi⟩ ops
          (Camera.new ⟨Real.cos, Real.sin, Real.sqrt, Real.pi⟩)).cameraPosition_ := by
  have hinv := Camera.reachable_inv (⟨Real.cos, Real.sin, Real.sqrt, Real.pi⟩ : MathOps ℝ) ops
  have hyaw : ∀ y : ℝ, y - eulerSpeed_ + eulerSpeed_ = y := fun y => by ring
  refine ⟨?_, ?_, rfl, rfl⟩
  · simp [Camera.LookRight, Camera.LookLeft, Camera.UpdateRotation, hyaw]
  · rw [hinv.1]
    simp [Camera.LookRight, Camera.LookLeft, Camera.UpdateRotation, hyaw]

/-! ## The key callback -/

/-- C8 at a held SPACE key: a SPACE event with action `GLFW_REPEAT`, during
which the polled state of SPACE is `GLFW_PRESS`, flips `wireframeMode_`. -/
theorem KeyCallback_repeat_flips {R : Type} [Field R] (m : MathOps R) (scancode mods : Int)
    (s : Driver R) :
    (KeyCallback m GLFW_PRESS GLFW_KEY_SPACE scancode GLFW_REPEAT mods s).wireframeMode_
      = !s.wireframeMode_ := by
  simp [KeyCallback]

end nr
